import Mathlib

/-!
Verification of the streaming top-k acquisition strategy implemented in
`src/energizer/strategies/base.py` (`EnergizerStrategy`).

The strategy keeps a running state `(counter, values, indices)` of the best
`query_size` (score, global pool index) pairs seen so far.  Per batch,
`test_step` computes per-example scores and selects the batch-local top-k
(`optimize_objective`, i.e. `torch.topk`), and `test_step_end` translates
batch-local indices into pool indices (`_batch_to_pool`) and merges the batch
candidates into the running state via a second top-k over the concatenation.

Scores are modelled as rationals, tensors as lists.  `torch.topk` selects the
`k` largest entries and returns them with their positional indices, sorted in
descending order; its tie-break among equal values is unspecified, so the
embedding fixes the stable choice (earlier position first).
-/

namespace Energizer

/-- Priority order used to embed `torch.topk` on a score tensor paired with
positional indices: larger value first, ties broken by smaller position. -/
def rankPos (a b : ℕ × ℚ) : Prop :=
  b.2 < a.2 ∨ (a.2 = b.2 ∧ a.1 ≤ b.1)

/-- The same priority order on (score, pool index) pairs: larger score first,
ties broken by smaller stored index. -/
def rankPair (a b : ℚ × ℤ) : Prop :=
  b.1 < a.1 ∨ (a.1 = b.1 ∧ a.2 ≤ b.2)

instance : DecidableRel rankPos := fun a b =>
  inferInstanceAs (Decidable (b.2 < a.2 ∨ (a.2 = b.2 ∧ a.1 ≤ b.1)))

instance : DecidableRel rankPair := fun a b =>
  inferInstanceAs (Decidable (b.1 < a.1 ∨ (a.1 = b.1 ∧ a.2 ≤ b.2)))

instance : IsTotal (ℕ × ℚ) rankPos where
  total a b := by
    rcases lt_trichotomy a.2 b.2 with h | h | h
    · exact Or.inr (Or.inl h)
    · rcases Nat.le_total a.1 b.1 with h' | h'
      · exact Or.inl (Or.inr ⟨h, h'⟩)
      · exact Or.inr (Or.inr ⟨h.symm, h'⟩)
    · exact Or.inl (Or.inl h)

instance : IsTrans (ℕ × ℚ) rankPos where
  trans a b c hab hbc := by
    rcases hab with h1 | ⟨h1, h1'⟩ <;> rcases hbc with h2 | ⟨h2, h2'⟩
    · exact Or.inl (h2.trans h1)
    · exact Or.inl (h2 ▸ h1)
    · exact Or.inl (h1 ▸ h2)
    · exact Or.inr ⟨h1.trans h2, h1'.trans h2'⟩

instance : IsRefl (ℕ × ℚ) rankPos where
  refl a := Or.inr ⟨rfl, le_refl _⟩

instance : IsAntisymm (ℕ × ℚ) rankPos where
  antisymm a b hab hba := by
    rcases hab with h1 | ⟨h1, h1'⟩ <;> rcases hba with h2 | ⟨h2, h2'⟩
    · exact absurd (h1.trans h2) (lt_irrefl _)
    · exact absurd h1 (h2 ▸ lt_irrefl _)
    · exact absurd h2 (h1 ▸ lt_irrefl _)
    · exact Prod.ext (le_antisymm h1' h2') h1

instance : IsTotal (ℚ × ℤ) rankPair where
  total a b := by
    rcases lt_trichotomy a.1 b.1 with h | h | h
    · exact Or.inr (Or.inl h)
    · rcases Int.le_total a.2 b.2 with h' | h'
      · exact Or.inl (Or.inr ⟨h, h'⟩)
      · exact Or.inr (Or.inr ⟨h.symm, h'⟩)
    · exact Or.inl (Or.inl h)

instance : IsTrans (ℚ × ℤ) rankPair where
  trans a b c hab hbc := by
    rcases hab with h1 | ⟨h1, h1'⟩ <;> rcases hbc with h2 | ⟨h2, h2'⟩
    · exact Or.inl (h2.trans h1)
    · exact Or.inl (h2 ▸ h1)
    · exact Or.inl (h1 ▸ h2)
    · exact Or.inr ⟨h1.trans h2, h1'.trans h2'⟩

instance : IsRefl (ℚ × ℤ) rankPair where
  refl a := Or.inr ⟨rfl, le_refl _⟩

instance : IsAntisymm (ℚ × ℤ) rankPair where
  antisymm a b hab hba := by
    rcases hab with h1 | ⟨h1, h1'⟩ <;> rcases hba with h2 | ⟨h2, h2'⟩
    · exact absurd (h1.trans h2) (lt_irrefl _)
    · exact absurd h1 (h2 ▸ lt_irrefl _)
    · exact absurd h2 (h1 ▸ lt_irrefl _)
    · exact Prod.ext h1 (le_antisymm h1' h2')

/-- `torch.topk(scores, k, dim=0)`: the `k` largest entries of `scores`
together with their positional indices, values sorted in descending order
(stable tie-break by position). -/
def torchTopk (k : ℕ) (scores : List ℚ) : List ℚ × List ℕ :=
  let s := (List.insertionSort rankPos scores.enum).take k
  (s.map Prod.snd, s.map Prod.fst)

/-- `EnergizerStrategy.optimize_objective`:
`query_size = min(scores.shape[0], self.query_size); return torch.topk(scores, query_size, dim=0)`. -/
def optimize_objective (query_size : ℕ) (scores : List ℚ) : List ℚ × List ℕ :=
  torchTopk (min scores.length query_size) scores

/-- The strategy state mutated across a labelling round:
`self._counter`, `self.values`, `self.indices`. -/
structure EnergizerState where
  counter : ℕ
  values : List ℚ
  indices : List ℤ
  deriving Repr, DecidableEq

/-- `EnergizerStrategy.reset`: `_counter = 0`, `values = torch.zeros(query_size)`,
`indices = -torch.ones(query_size)`.  It overwrites the previous state
unconditionally, so the prior state is an (ignored) argument. -/
def reset (query_size : ℕ) (_prior : EnergizerState) : EnergizerState :=
  { counter := 0
    values := List.replicate query_size 0
    indices := List.replicate query_size (-1) }

/-- `EnergizerStrategy._batch_to_pool` (pure view): first the input indices are
shifted by the counter (`indices += self._counter`) and the counter advanced
(`self._counter += batch_size`), then the overflow check `_counter > pool_size`
is evaluated.  Returns the translated indices, the new counter value, and
whether the `RuntimeError` is raised.  Note the mutations happen before the
check, matching the statement order in the source. -/
def batchToPool (pool_size counter : ℕ) (indices : List ℤ) (batch_size : ℕ) :
    (List ℤ × ℕ) × Bool :=
  let g := indices.map (fun i => i + (counter : ℤ))
  let c := counter + batch_size
  ((g, c), decide (pool_size < c))

/-- `EnergizerStrategy.test_step_end`: translates the batch-local indices to
pool indices, and (if no overflow is raised) concatenates the running state
with the batch candidates and re-selects the top `query_size` by a second
`optimize_objective` call, writing the result back into the state.  The `Bool`
result records whether the `RuntimeError` from `_batch_to_pool` was raised; in
that case the merge does not run, but the counter has already been advanced. -/
def test_step_end (query_size pool_size : ℕ) (s : EnergizerState)
    (values : List ℚ) (indices : List ℕ) (batch_size : ℕ) :
    EnergizerState × Bool :=
  let r := batchToPool pool_size s.counter (indices.map (fun (i : ℕ) => (i : ℤ))) batch_size
  if r.2 then ({ s with counter := r.1.2 }, true)
  else
    let all_values := s.values ++ values
    let all_indices := s.indices ++ r.1.1
    let p := optimize_objective query_size all_values
    ({ counter := r.1.2
       values := p.1
       indices := p.2.map (fun i => all_indices.getD i 0) }, false)

/-- `EnergizerStrategy.test_step`, given the per-example scores produced by the
(abstract) scoring pipeline.  The base class computes
`scores = on_after_objective(objective(on_before_objective(self(batch))))`,
with `objective` abstract; per the contract the flattened scores hold one entry
per example, so `logits.shape[0] = scores.length`.  Returns
`(values, indices, batch_size)` with `values, indices = optimize_objective(scores)`. -/
def test_step (query_size : ℕ) (scores : List ℚ) : (List ℚ × List ℕ) × ℕ :=
  (optimize_objective query_size scores, scores.length)

/-- One pool batch as driven by the evaluation loop: `test_step` followed by
`test_step_end` on its output. -/
def processBatch (query_size pool_size : ℕ) (s : EnergizerState) (scores : List ℚ) :
    EnergizerState × Bool :=
  let o := test_step query_size scores
  test_step_end query_size pool_size s o.1.1 o.1.2 o.2

/-- Processes a list of batches in order from state `s`; stops at the batch on
which the `RuntimeError` is raised and reports its position. -/
def runFrom (query_size pool_size : ℕ) (s : EnergizerState) :
    List (List ℚ) → EnergizerState × Option ℕ
  | [] => (s, none)
  | b :: bs =>
    let r := processBatch query_size pool_size s b
    if r.2 then (r.1, some 0)
    else
      let rest := runFrom query_size pool_size r.1 bs
      (rest.1, rest.2.map (· + 1))

/-- A full labelling round: `reset()` followed by processing all batches. -/
def runRound (query_size pool_size : ℕ) (bs : List (List ℚ)) :
    EnergizerState × Option ℕ :=
  runFrom query_size pool_size (reset query_size ⟨0, [], []⟩) bs

/-- The sentinel state pairs produced by `reset`: `query_size` copies of
score `0` with index `-1`. -/
def sentPairs (query_size : ℕ) : List (ℚ × ℤ) :=
  List.replicate query_size ((0 : ℚ), (-1 : ℤ))

/-- The pool pairs of a list of scores: each score tagged with its global pool
index, starting from `c`. -/
def pairsFrom (c : ℤ) : List ℚ → List (ℚ × ℤ)
  | [] => []
  | v :: vs => (v, c) :: pairsFrom (c + 1) vs

/-- The (score, index) pairs held by a state, slot by slot. -/
def statePairs (s : EnergizerState) : List (ℚ × ℤ) :=
  s.values.zip s.indices

/-- The true top-`k` (score, global index) pairs of a whole pool of scores, as
obtained by sorting the full pool once (descending scores, stable). -/
def trueTopK (k : ℕ) (pool : List ℚ) : List (ℚ × ℤ) :=
  (List.insertionSort rankPair (pairsFrom 0 pool)).take k

/-- `EnergizerStrategy.objective`: the base-class acquisition function, which
always fails: `raise NotImplementedError`. -/
def objective (_logits : List ℚ) : Except String (List ℚ) :=
  .error "NotImplementedError"

/-- `EnergizerStrategy.on_before_objective`: identity by default. -/
def on_before_objective (logits : List ℚ) : List ℚ :=
  logits

/-- `EnergizerStrategy.on_after_objective`: flattens the scores; on the
one-score-per-example lists modelled here, flattening is the identity. -/
def on_after_objective (scores : List ℚ) : List ℚ :=
  scores

/-- The `test_step` scoring pipeline exactly as the base class runs it, for a
strategy that has not overridden `objective`: hooks and `objective` are called
before `optimize_objective`; the `NotImplementedError` propagates and no state
is touched (`test_step` never writes `counter`/`values`/`indices`). -/
def test_step_pipeline (query_size : ℕ) (logits : List ℚ) :
    Except String ((List ℚ × List ℕ) × ℕ) :=
  match objective (on_before_objective logits) with
  | .error e => .error e
  | .ok raw =>
    let scores := on_after_objective raw
    .ok (optimize_objective query_size scores, logits.length)

/-- Heap view of `_batch_to_pool`'s index translation: tensors live in a heap
of int64 buffers addressed by `ref`; `indices += self._counter` overwrites the
buffer in place and `return indices` returns the same reference. -/
def batchToPoolRef (counter : ℤ) (heap : List (List ℤ)) (ref : ℕ) :
    List (List ℤ) × ℕ :=
  (heap.set ref ((heap.getD ref []).map (fun i => i + counter)), ref)

/-- After processing the scores `processed` (in order) since the last reset,
the state holds the top `query_size` of the sentinel pairs plus the processed
pool pairs, in descending sorted order, and the counter equals the number of
processed examples. -/
def Inv (query_size : ℕ) (processed : List ℚ) (s : EnergizerState) : Prop :=
  s.counter = processed.length ∧
  s.values.length = query_size ∧
  s.indices.length = query_size ∧
  statePairs s =
    (List.insertionSort rankPair
      (sentPairs query_size ++ pairsFrom 0 processed)).take query_size

/-- The pair-level merge performed by `test_step_end` once batch indices carry
their global offsets: the running pairs are concatenated with the batch's own
top-k pairs and the top `query_size` of the concatenation is kept (sorted). -/
def mergePairs (query_size : ℕ) (s b : List (ℚ × ℤ)) : List (ℚ × ℤ) :=
  let bk := (List.insertionSort rankPair b).take (min b.length query_size)
  (List.insertionSort rankPair (s ++ bk)).take (min (s ++ bk).length query_size)

/-- A whole round of pair-level merges over pre-indexed batches, starting from
the sentinel state produced by `reset`. -/
def runMerges (query_size : ℕ) (bs : List (List (ℚ × ℤ))) : List (ℚ × ℤ) :=
  bs.foldl (mergePairs query_size) (sentPairs query_size)

/-- Tags every batch with its true global offsets (the offset-correct counter
bookkeeping of the canonical processing order). -/
def indexBatches (c : ℤ) : List (List ℚ) → List (List (ℚ × ℤ))
  | [] => []
  | b :: bs => pairsFrom c b :: indexBatches (c + b.length) bs

/-! ### Generic lemmas about `orderedInsert`/`insertionSort` under a map

`List.map_insertionSort` in the library needs the comparison-preservation iff
for both orientations of every pair; here the sentinel slots are duplicated,
so only the orientation in list order is available.  That one-sided hypothesis
suffices because insertion sort of `x :: xs` only ever evaluates `r x b` for
`b` in the tail. -/

lemma map_orderedInsert_of_iff {α β : Type} {r : α → α → Prop} {s : β → β → Prop}
    [DecidableRel r] [DecidableRel s] (f : α → β) (a : α) (l : List α)
    (h : ∀ b ∈ l, (r a b ↔ s (f a) (f b))) :
    (List.orderedInsert r a l).map f = List.orderedInsert s (f a) (l.map f) := by
  induction l with
  | nil => rfl
  | cons b t ih =>
    have hb := h b (List.mem_cons_self b t)
    by_cases hab : r a b
    · rw [List.orderedInsert, if_pos hab, List.map_cons, List.map_cons,
        List.orderedInsert, if_pos (hb.mp hab)]
    · rw [List.orderedInsert, if_neg hab, List.map_cons, List.map_cons,
        List.orderedInsert, if_neg (fun hs => hab (hb.mpr hs)),
        ih (fun c hc => h c (List.mem_cons_of_mem _ hc))]

lemma map_insertionSort_of_pairwise {α β : Type} {r : α → α → Prop} {s : β → β → Prop}
    [DecidableRel r] [DecidableRel s] (f : α → β) (l : List α)
    (h : l.Pairwise fun a b => (r a b ↔ s (f a) (f b))) :
    (List.insertionSort r l).map f = List.insertionSort s (l.map f) := by
  induction l with
  | nil => rfl
  | cons x xs ih =>
    rw [List.pairwise_cons] at h
    rw [List.insertionSort, List.map_cons, List.insertionSort,
      map_orderedInsert_of_iff f x (List.insertionSort r xs)
        (fun b hb => h.1 b ((List.mem_insertionSort r).mp hb)),
      ih h.2]

/-! ### Enumeration and pool-pair lemmas -/

lemma pairwise_fst_lt_enum {α : Type} (l : List α) :
    l.enum.Pairwise fun a b => a.1 < b.1 := by
  rw [List.pairwise_iff_getElem]
  intro i j hi hj hij
  rw [List.getElem_enum, List.getElem_enum]
  exact hij

lemma map_enumFrom_getD_zip (vals : List ℚ) :
    ∀ (idxs : List ℤ) (n : ℕ), n + vals.length ≤ idxs.length →
      (List.enumFrom n vals).map (fun p => (p.2, idxs.getD p.1 0)) =
        vals.zip (idxs.drop n) := by
  induction vals with
  | nil => intro idxs n _; rfl
  | cons v vs ih =>
    intro idxs n h
    have hn : n < idxs.length := by simp at h; omega
    rw [List.enumFrom_cons, List.map_cons, ih idxs (n + 1) (by simp at h ⊢; omega),
      List.drop_eq_getElem_cons hn, List.zip_cons_cons,
      List.getD_eq_getElem idxs 0 hn]

lemma map_enum_getD_zip (vals : List ℚ) (idxs : List ℤ)
    (h : vals.length ≤ idxs.length) :
    vals.enum.map (fun p => (p.2, idxs.getD p.1 0)) = vals.zip idxs := by
  have := map_enumFrom_getD_zip vals idxs 0 (by omega)
  simpa [List.enum] using this

lemma map_enumFrom_addConst (c : ℤ) (vals : List ℚ) :
    ∀ n : ℕ, (List.enumFrom n vals).map (fun p => (p.2, (p.1 : ℤ) + c)) =
      pairsFrom (c + n) vals := by
  induction vals with
  | nil => intro n; rfl
  | cons v vs ih =>
    intro n
    rw [List.enumFrom_cons, List.map_cons, ih (n + 1), pairsFrom]
    congr 1
    · show (v, (n : ℤ) + c) = (v, c + (n : ℤ))
      rw [add_comm]
    · congr 1
      push_cast
      ring

lemma pairsFrom_length (c : ℤ) (l : List ℚ) : (pairsFrom c l).length = l.length := by
  induction l generalizing c with
  | nil => rfl
  | cons v vs ih => simp [pairsFrom, ih]

lemma map_fst_pairsFrom (c : ℤ) (l : List ℚ) : (pairsFrom c l).map Prod.fst = l := by
  induction l generalizing c with
  | nil => rfl
  | cons v vs ih => simp [pairsFrom, ih]

lemma pairsFrom_append (c : ℤ) (l₁ l₂ : List ℚ) :
    pairsFrom c (l₁ ++ l₂) = pairsFrom c l₁ ++ pairsFrom (c + l₁.length) l₂ := by
  induction l₁ generalizing c with
  | nil => simp [pairsFrom]
  | cons v vs ih =>
    have h2 : c + ((vs.length : ℤ) + 1) = c + 1 + (vs.length : ℤ) := by ring
    simp only [List.cons_append, pairsFrom, List.append_eq, ih (c + 1), List.length_cons,
      Nat.cast_add, Nat.cast_one, h2]

lemma mem_pairsFrom {c : ℤ} {l : List ℚ} {p : ℚ × ℤ} (h : p ∈ pairsFrom c l) :
    c ≤ p.2 ∧ p.2 < c + l.length ∧ p.1 ∈ l := by
  induction l generalizing c with
  | nil => cases h
  | cons v vs ih =>
    rcases List.mem_cons.mp h with h | h
    · subst h
      refine ⟨le_refl _, ?_, List.mem_cons_self _ _⟩
      simp only [List.length_cons]
      push_cast
      omega
    · obtain ⟨h1, h2, h3⟩ := ih h
      refine ⟨by omega, ?_, List.mem_cons_of_mem _ h3⟩
      simp only [List.length_cons]
      push_cast
      omega

/-! ### Uniqueness of the sorted list -/

lemma insertionSort_eq_of_perm {l l' : List (ℚ × ℤ)} (h : l.Perm l') :
    List.insertionSort rankPair l = List.insertionSort rankPair l' :=
  List.eq_of_perm_of_sorted
    ((List.perm_insertionSort _ l).trans (h.trans (List.perm_insertionSort _ l').symm))
    (List.sorted_insertionSort _ l) (List.sorted_insertionSort _ l')

lemma insertionSort_middle (x : ℚ × ℤ) (l₁ l₂ : List (ℚ × ℤ)) :
    List.insertionSort rankPair (l₁ ++ x :: l₂) =
      List.orderedInsert rankPair x (List.insertionSort rankPair (l₁ ++ l₂)) := by
  rw [insertionSort_eq_of_perm
    (List.perm_middle : (l₁ ++ x :: l₂).Perm (x :: (l₁ ++ l₂)))]
  rfl

/-! ### Robustness of the sorted `take k` prefix

Dropping an element that is outranked by at least `k` elements of the kept part
does not change the first `k` entries of the sorted list.  This is the
"superset-safe reduction" justifying the per-batch top-k pre-selection and the
replacement of the running state by a top-k of candidates. -/

lemma take_orderedInsert_of_rank {x : ℚ × ℤ} :
    ∀ (s : List (ℚ × ℤ)) (k : ℕ), List.Sorted rankPair s → k ≤ s.length →
      (∀ b ∈ s.take k, rankPair b x) →
      (List.orderedInsert rankPair x s).take k = s.take k := by
  intro s
  induction s with
  | nil =>
    intro k _ hk _
    obtain rfl : k = 0 := Nat.le_zero.mp hk
    rfl
  | cons b t ih =>
    intro k hs hk hdom
    cases k with
    | zero => rfl
    | succ m =>
      rw [List.take_succ_cons] at hdom
      have hb : rankPair b x := hdom b (List.mem_cons_self _ _)
      by_cases hxb : rankPair x b
      · have hxeq : x = b := antisymm hxb hb
        rw [List.orderedInsert, if_pos hxb, List.take_succ_cons, List.take_succ_cons]
        have hmt : m ≤ t.length := by
          simpa using Nat.succ_le_succ_iff.mp hk
        have hall : ∀ c ∈ t.take m, c = b := by
          intro c hc
          have hcx : rankPair c x := hdom c (List.mem_cons_of_mem _ hc)
          have hbc : rankPair b c :=
            List.rel_of_sorted_cons hs c (List.take_subset m t hc)
          exact antisymm (hxeq ▸ hcx) hbc
        have h1 : t.take m = List.replicate m b := by
          have hlen : (t.take m).length = m := by
            rw [List.length_take]
            omega
          have h := List.eq_replicate_length.mpr hall
          rwa [hlen] at h
        have hall2 : ∀ c ∈ (b :: t).take m, c = b := by
          intro c hc
          have hc' : c ∈ b :: t.take m := by
            cases m with
            | zero => cases hc
            | succ m' =>
              rw [List.take_succ_cons] at hc
              rcases List.mem_cons.mp hc with h | h
              · exact h ▸ List.mem_cons_self _ _
              · exact List.mem_cons_of_mem _
                  (List.take_subset m' (t.take (m' + 1))
                    (by rw [List.take_take]; simpa using h))
          rcases List.mem_cons.mp hc' with h | h
          · exact h
          · exact hall c h
        have h2 : (b :: t).take m = List.replicate m b := by
          have hlen : ((b :: t).take m).length = m := by
            rw [List.length_take, List.length_cons]
            omega
          have h := List.eq_replicate_length.mpr hall2
          rwa [hlen] at h
        rw [hxeq, h1, h2]
      · rw [List.orderedInsert, if_neg hxb, List.take_succ_cons, List.take_succ_cons,
          ih m hs.of_cons (by simpa using Nat.succ_le_succ_iff.mp hk)
            (fun c hc => hdom c (List.mem_cons_of_mem _ hc))]

lemma countP_not_rank_lt_of_mem_take {b : ℚ × ℤ} :
    ∀ (s : List (ℚ × ℤ)) (k : ℕ), List.Sorted rankPair s → b ∈ s.take k →
      s.countP (fun y => !(decide (rankPair b y))) < k := by
  intro s
  induction s with
  | nil => intro k _ hb; rw [List.take_nil] at hb; cases hb
  | cons a t ih =>
    intro k hs hb
    cases k with
    | zero => cases hb
    | succ m =>
      rw [List.take_succ_cons] at hb
      rw [List.countP_cons]
      rcases List.mem_cons.mp hb with h | h
      · subst h
        have h0 : t.countP (fun y => !(decide (rankPair b y))) = 0 :=
          List.countP_eq_zero.mpr (fun y hy => by
            simp [List.rel_of_sorted_cons hs y hy])
        have h1 : (!(decide (rankPair b b))) = false := by
          simp [refl_of rankPair b]
        simp [h0, h1]
      · have h1 := ih m hs.of_cons h
        have h2 : (if (!(decide (rankPair b a))) = true then 1 else 0) ≤ 1 := by
          split <;> omega
        omega

lemma take_sort_dropDominated (k : ℕ) :
    ∀ (X E D : List (ℚ × ℤ)),
      (∀ x ∈ X, k ≤ E.countP (fun y => decide (rankPair y x))) →
      (List.insertionSort rankPair (E ++ X ++ D)).take k =
        (List.insertionSort rankPair (E ++ D)).take k := by
  intro X
  induction X with
  | nil =>
    intro E D _
    rw [List.append_nil]
  | cons x X' ih =>
    intro E D hX
    have hx := hX x (List.mem_cons_self _ _)
    have hperm : (E ++ (x :: X') ++ D).Perm (E ++ x :: (X' ++ D)) := by
      rw [List.append_assoc, List.cons_append]
    have h1 : List.insertionSort rankPair (E ++ (x :: X') ++ D) =
        List.orderedInsert rankPair x (List.insertionSort rankPair (E ++ (X' ++ D))) := by
      rw [insertionSort_eq_of_perm hperm, insertionSort_middle]
    have hsorted := List.sorted_insertionSort rankPair (E ++ (X' ++ D))
    have hklen : k ≤ (List.insertionSort rankPair (E ++ (X' ++ D))).length := by
      rw [List.length_insertionSort, List.length_append, List.length_append]
      calc k ≤ E.countP (fun y => decide (rankPair y x)) := hx
        _ ≤ E.length := List.countP_le_length _
        _ ≤ E.length + (X'.length + D.length) := Nat.le_add_right _ _
    have hdom : ∀ b ∈ (List.insertionSort rankPair (E ++ (X' ++ D))).take k,
        rankPair b x := by
      intro b hbtake
      by_contra hnb
      have hlt := countP_not_rank_lt_of_mem_take _ k hsorted hbtake
      have hge : k ≤ (List.insertionSort rankPair (E ++ (X' ++ D))).countP
          (fun y => !(decide (rankPair b y))) := by
        rw [(List.perm_insertionSort rankPair (E ++ (X' ++ D))).countP_eq]
        rw [List.countP_append]
        have hmono : E.countP (fun y => decide (rankPair y x)) ≤
            E.countP (fun y => !(decide (rankPair b y))) := by
          apply List.countP_mono_left
          intro y _ hy
          simp only [decide_eq_true_eq] at hy
          simp only [Bool.not_eq_true', decide_eq_false_iff_not]
          intro hby
          exact hnb (trans_of rankPair hby hy)
        omega
      omega
    have h2 := take_orderedInsert_of_rank _ k hsorted hklen hdom
    rw [h1, h2, ← List.append_assoc, ih E D fun y hy => hX y (List.mem_cons_of_mem _ hy)]

/-! ### Bridging the positional top-k to the pair-level sorted view

`torch.topk` works on positions into its input tensor; the state stores
(score, pool index) pairs.  When positions and stored indices are consistent
(equal scores listed in nondecreasing stored-index order), selecting by
position and then dereferencing the index tensor is the same as sorting the
pairs directly. -/

lemma enum_rank_iff (av : List ℚ) (ai : List ℤ) (hlen : av.length = ai.length)
    (hcons : (av.zip ai).Pairwise fun a b => a.1 = b.1 → a.2 ≤ b.2) :
    av.enum.Pairwise fun a b =>
      (rankPos a b ↔ rankPair (a.2, ai.getD a.1 0) (b.2, ai.getD b.1 0)) := by
  rw [List.pairwise_iff_getElem] at hcons ⊢
  intro i j hi hj hij
  rw [List.enum_length] at hi hj
  have hi' : i < ai.length := hlen ▸ hi
  have hj' : j < ai.length := hlen ▸ hj
  rw [List.getElem_enum _ _ (by rwa [List.enum_length]),
    List.getElem_enum _ _ (by rwa [List.enum_length])]
  have hzlen : (av.zip ai).length = av.length := by
    rw [List.length_zip, hlen, min_self]
  have hz := hcons i j (by rwa [hzlen]) (by rwa [hzlen]) hij
  rw [List.getElem_zip, List.getElem_zip] at hz
  simp only [rankPos, rankPair,
    List.getD_eq_getElem ai 0 hi', List.getD_eq_getElem ai 0 hj']
  constructor
  · rintro (h | ⟨h1, _⟩)
    · exact Or.inl h
    · exact Or.inr ⟨h1, hz h1⟩
  · rintro (h | ⟨h1, _⟩)
    · exact Or.inl h
    · exact Or.inr ⟨h1, Nat.le_of_lt hij⟩

lemma optimize_objective_merge_pairs (qs : ℕ) (av : List ℚ) (ai : List ℤ)
    (hlen : av.length = ai.length)
    (hcons : (av.zip ai).Pairwise fun a b => a.1 = b.1 → a.2 ≤ b.2) :
    (optimize_objective qs av).1.zip
        ((optimize_objective qs av).2.map (fun (i : ℕ) => ai.getD i 0)) =
      (List.insertionSort rankPair (av.zip ai)).take (min av.length qs) := by
  simp only [optimize_objective, torchTopk, List.map_map, Function.comp_def]
  rw [List.zip_map', List.map_take,
    map_insertionSort_of_pairwise (s := rankPair)
      (fun a => ((a.2 : ℚ), ai.getD a.1 0)) av.enum (enum_rank_iff av ai hlen hcons),
    map_enum_getD_zip av ai (le_of_eq hlen)]

lemma optimize_objective_batch_pairs (qs : ℕ) (scores : List ℚ) (c : ℤ) :
    (optimize_objective qs scores).1.zip
        ((optimize_objective qs scores).2.map (fun (i : ℕ) => (i : ℤ) + c)) =
      (List.insertionSort rankPair (pairsFrom c scores)).take (min scores.length qs) := by
  simp only [optimize_objective, torchTopk, List.map_map, Function.comp_def]
  rw [List.zip_map', List.map_take]
  have hiff : scores.enum.Pairwise fun a b =>
      (rankPos a b ↔ rankPair ((a.2 : ℚ), (a.1 : ℤ) + c) ((b.2 : ℚ), (b.1 : ℤ) + c)) := by
    rw [List.pairwise_iff_getElem]
    intro i j hi hj hij
    simp only [rankPos, rankPair]
    constructor
    · rintro (h | ⟨h1, h2⟩)
      · exact Or.inl h
      · exact Or.inr ⟨h1, by omega⟩
    · rintro (h | ⟨h1, h2⟩)
      · exact Or.inl h
      · exact Or.inr ⟨h1, by omega⟩
  rw [map_insertionSort_of_pairwise (s := rankPair)
    (fun a => ((a.2 : ℚ), (a.1 : ℤ) + c)) scores.enum hiff]
  have h := map_enumFrom_addConst c scores 0
  simp only [Nat.cast_zero, add_zero] at h
  rw [(by simp [List.enum] : List.enumFrom 0 scores = scores.enum)] at h
  rw [h]

/-! ### Associativity of streaming top-k -/

lemma take_sort_topk_left (k : ℕ) (C D : List (ℚ × ℤ)) (hC : k ≤ C.length) :
    (List.insertionSort rankPair
        ((List.insertionSort rankPair C).take k ++ D)).take k =
      (List.insertionSort rankPair (C ++ D)).take k := by
  have hsC := List.sorted_insertionSort rankPair C
  have hlenS : (List.insertionSort rankPair C).length = C.length :=
    List.length_insertionSort rankPair C
  have hdom : ∀ x ∈ (List.insertionSort rankPair C).drop k,
      k ≤ ((List.insertionSort rankPair C).take k).countP
        (fun y => decide (rankPair y x)) := by
    intro x hx
    have hall : ∀ y ∈ (List.insertionSort rankPair C).take k, rankPair y x :=
      fun y hy => hsC.rel_of_mem_take_of_mem_drop hy hx
    have hcp : ((List.insertionSort rankPair C).take k).countP
        (fun y => decide (rankPair y x)) =
        ((List.insertionSort rankPair C).take k).length :=
      List.countP_eq_length.mpr (fun y hy => decide_eq_true (hall y hy))
    rw [hcp, List.length_take, hlenS]
    omega
  have h1 := take_sort_dropDominated k ((List.insertionSort rankPair C).drop k)
    ((List.insertionSort rankPair C).take k) D hdom
  rw [← h1]
  apply congrArg (List.take k)
  apply insertionSort_eq_of_perm
  rw [List.take_append_drop]
  exact (List.perm_insertionSort rankPair C).append_right D

lemma take_sort_topk_right (k : ℕ) (C B : List (ℚ × ℤ)) :
    (List.insertionSort rankPair
        (C ++ (List.insertionSort rankPair B).take (min B.length k))).take k =
      (List.insertionSort rankPair (C ++ B)).take k := by
  have hsB := List.sorted_insertionSort rankPair B
  have hlenS : (List.insertionSort rankPair B).length = B.length :=
    List.length_insertionSort rankPair B
  have hdom : ∀ x ∈ (List.insertionSort rankPair B).drop (min B.length k),
      k ≤ ((List.insertionSort rankPair B).take (min B.length k)).countP
        (fun y => decide (rankPair y x)) := by
    intro x hx
    have hxlen : min B.length k < (List.insertionSort rankPair B).length := by
      by_contra hle
      rw [List.drop_eq_nil_of_le (Nat.le_of_not_lt hle)] at hx
      cases hx
    have hall : ∀ y ∈ (List.insertionSort rankPair B).take (min B.length k),
        rankPair y x :=
      fun y hy => hsB.rel_of_mem_take_of_mem_drop hy hx
    have hcp : ((List.insertionSort rankPair B).take (min B.length k)).countP
        (fun y => decide (rankPair y x)) =
        ((List.insertionSort rankPair B).take (min B.length k)).length :=
      List.countP_eq_length.mpr (fun y hy => decide_eq_true (hall y hy))
    rw [hcp, List.length_take, hlenS]
    rw [hlenS] at hxlen
    omega
  have h1 := take_sort_dropDominated k
    ((List.insertionSort rankPair B).drop (min B.length k))
    ((List.insertionSort rankPair B).take (min B.length k)) C hdom
  have h2 : (List.insertionSort rankPair
      (C ++ (List.insertionSort rankPair B).take (min B.length k))) =
      (List.insertionSort rankPair
        ((List.insertionSort rankPair B).take (min B.length k) ++ C)) :=
    insertionSort_eq_of_perm List.perm_append_comm
  rw [h2, ← h1]
  apply congrArg (List.take k)
  apply insertionSort_eq_of_perm
  rw [List.take_append_drop]
  exact List.perm_append_comm.trans
    ((List.perm_insertionSort rankPair B).append_left C)

lemma merge_characterization (k : ℕ) (C B : List (ℚ × ℤ)) (hC : k ≤ C.length) :
    (List.insertionSort rankPair
        ((List.insertionSort rankPair C).take k ++
          (List.insertionSort rankPair B).take (min B.length k))).take k =
      (List.insertionSort rankPair (C ++ B)).take k := by
  rw [take_sort_topk_left k C _ hC, take_sort_topk_right k C B]

/-! ### The state invariant -/

lemma sentPairs_length (query_size : ℕ) : (sentPairs query_size).length = query_size :=
  List.length_replicate _ _

lemma statePairs_sorted {qs : ℕ} {processed : List ℚ} {s : EnergizerState}
    (h : Inv qs processed s) : List.Sorted rankPair (statePairs s) := by
  rw [h.2.2.2]
  exact List.Pairwise.sublist (List.take_sublist _ _) (List.sorted_insertionSort _ _)

lemma statePairs_index_lt {qs : ℕ} {processed : List ℚ} {s : EnergizerState}
    (h : Inv qs processed s) : ∀ p ∈ statePairs s, p.2 < (s.counter : ℤ) := by
  intro p hp
  rw [h.2.2.2] at hp
  have hp2 : p ∈ sentPairs qs ++ pairsFrom 0 processed :=
    (List.perm_insertionSort rankPair _).mem_iff.mp (List.take_subset _ _ hp)
  rw [h.1]
  rcases List.mem_append.mp hp2 with h' | h'
  · have he : p = ((0 : ℚ), (-1 : ℤ)) := List.eq_of_mem_replicate h'
    rw [he]
    have : (0 : ℤ) ≤ (processed.length : ℤ) := Int.natCast_nonneg _
    omega
  · have hb := mem_pairsFrom h'
    omega

lemma optimize_objective_length₁ (qs : ℕ) (scores : List ℚ) :
    (optimize_objective qs scores).1.length = min scores.length qs := by
  simp only [optimize_objective, torchTopk, List.length_map, List.length_take,
    List.length_insertionSort, List.enum_length]
  omega

lemma optimize_objective_length₂ (qs : ℕ) (scores : List ℚ) :
    (optimize_objective qs scores).2.length = min scores.length qs := by
  simp only [optimize_objective, torchTopk, List.length_map, List.length_take,
    List.length_insertionSort, List.enum_length]
  omega

lemma processBatch_step {query_size pool_size : ℕ} {processed : List ℚ}
    {s : EnergizerState} (hInv : Inv query_size processed s) (b : List ℚ)
    (hov : processed.length + b.length ≤ pool_size) :
    (processBatch query_size pool_size s b).2 = false ∧
      Inv query_size (processed ++ b) (processBatch query_size pool_size s b).1 := by
  obtain ⟨hc, hvl, hil, hsp⟩ := hInv
  have hcond : (decide (pool_size < s.counter + b.length)) = false :=
    decide_eq_false (by omega)
  have hg : (((optimize_objective query_size b).2.map
        (fun (i : ℕ) => (i : ℤ))).map (fun i => i + (s.counter : ℤ))) =
      (optimize_objective query_size b).2.map
        (fun (i : ℕ) => (i : ℤ) + (s.counter : ℤ)) := by
    rw [List.map_map]
    rfl
  have hbatch := optimize_objective_batch_pairs query_size b (s.counter : ℤ)
  -- lengths of the batch candidate lists
  have hb1 := optimize_objective_length₁ query_size b
  have hb2 := optimize_objective_length₂ query_size b
  -- reduce processBatch to the merge branch
  simp only [processBatch, test_step, test_step_end, batchToPool, hcond,
    Bool.false_eq_true, if_false]
  refine ⟨trivial, ?_, ?_, ?_, ?_⟩
  · simp only [List.length_append, hc]
  · rw [optimize_objective_length₁]
    simp only [List.length_append, hvl, hb1]
    omega
  · rw [List.length_map, optimize_objective_length₂]
    simp only [List.length_append, hvl, hb1]
    omega
  · -- the pair-level characterization
    set av := s.values ++ (optimize_objective query_size b).1 with hav
    set ai := s.indices ++ (((optimize_objective query_size b).2.map
        (fun (i : ℕ) => (i : ℤ))).map (fun i => i + (s.counter : ℤ))) with hai
    have havl : av.length = query_size + min b.length query_size := by
      rw [hav, List.length_append, hvl, hb1]
    have hail : ai.length = query_size + min b.length query_size := by
      rw [hai, List.length_append, List.length_map, List.length_map, hil, hb2]
    have hlen : av.length = ai.length := by rw [havl, hail]
    -- the concatenated candidates split into state pairs and batch pairs
    have hzip : av.zip ai = statePairs s ++
        ((optimize_objective query_size b).1.zip
          ((optimize_objective query_size b).2.map
            (fun (i : ℕ) => (i : ℤ) + (s.counter : ℤ)))) := by
      rw [hav, hai, hg, List.zip_append (by rw [hvl, hil])]
      rfl
    have hbp_sorted : List.Sorted rankPair
        ((optimize_objective query_size b).1.zip
          ((optimize_objective query_size b).2.map
            (fun (i : ℕ) => (i : ℤ) + (s.counter : ℤ)))) := by
      rw [hbatch]
      exact List.Pairwise.sublist (List.take_sublist _ _) (List.sorted_insertionSort _ _)
    have hbp_idx : ∀ p ∈ ((optimize_objective query_size b).1.zip
        ((optimize_objective query_size b).2.map
          (fun (i : ℕ) => (i : ℤ) + (s.counter : ℤ)))),
        (s.counter : ℤ) ≤ p.2 := by
      intro p hp
      rw [hbatch] at hp
      have hp2 : p ∈ pairsFrom (s.counter : ℤ) b :=
        (List.perm_insertionSort rankPair _).mem_iff.mp (List.take_subset _ _ hp)
      exact (mem_pairsFrom hp2).1
    have hcons : (av.zip ai).Pairwise fun a b => a.1 = b.1 → a.2 ≤ b.2 := by
      rw [hzip, List.pairwise_append]
      refine ⟨(statePairs_sorted ⟨hc, hvl, hil, hsp⟩).imp ?_, hbp_sorted.imp ?_, ?_⟩
      · intro a b hab heq
        rcases hab with h' | ⟨_, h'⟩
        · exact absurd heq (ne_of_gt h')
        · exact h'
      · intro a b hab heq
        rcases hab with h' | ⟨_, h'⟩
        · exact absurd heq (ne_of_gt h')
        · exact h'
      · intro a ha x hx _
        have h1 := statePairs_index_lt ⟨hc, hvl, hil, hsp⟩ a ha
        have h2 := hbp_idx x hx
        omega
    have hmerge := optimize_objective_merge_pairs query_size av ai hlen hcons
    have hminav : min av.length query_size = query_size := by
      rw [havl]; omega
    rw [hminav] at hmerge
    show (optimize_objective query_size av).1.zip
        ((optimize_objective query_size av).2.map (fun i => ai.getD i 0)) = _
    rw [hmerge, hzip, hsp, hbatch]
    have hBlen : (pairsFrom (s.counter : ℤ) b).length = b.length :=
      pairsFrom_length _ _
    have hfinal := merge_characterization query_size
      (sentPairs query_size ++ pairsFrom 0 processed)
      (pairsFrom (s.counter : ℤ) b)
      (by rw [List.length_append, sentPairs_length]; omega)
    rw [hBlen] at hfinal
    rw [hfinal]
    apply congrArg (List.take query_size)
    apply congrArg (List.insertionSort rankPair)
    rw [List.append_assoc]
    apply congrArg (sentPairs query_size ++ ·)
    rw [hc]
    have := pairsFrom_append 0 processed b
    rw [zero_add] at this
    rw [← this]

lemma inv_reset (qs : ℕ) (s₀ : EnergizerState) : Inv qs [] (reset qs s₀) := by
  refine ⟨rfl, List.length_replicate _ _, List.length_replicate _ _, ?_⟩
  have h1 : statePairs (reset qs s₀) = sentPairs qs := by
    simp only [statePairs, reset, sentPairs, List.zip_replicate, min_self]
  have h3 : List.insertionSort rankPair (sentPairs qs) = sentPairs qs :=
    List.Sorted.insertionSort_eq
      (List.pairwise_replicate.mpr (Or.inr (refl_of rankPair _)))
  rw [h1]
  show sentPairs qs = (List.insertionSort rankPair (sentPairs qs ++ [])).take qs
  rw [List.append_nil, h3, sentPairs, List.take_replicate, min_self]

lemma runFrom_inv {qs ps : ℕ} :
    ∀ (bs : List (List ℚ)) (processed : List ℚ) (s : EnergizerState),
      Inv qs processed s → processed.length + bs.flatten.length ≤ ps →
      (runFrom qs ps s bs).2 = none ∧
        Inv qs (processed ++ bs.flatten) (runFrom qs ps s bs).1 := by
  intro bs
  induction bs with
  | nil =>
    intro processed s hInv _
    rw [List.flatten_nil, List.append_nil]
    exact ⟨rfl, hInv⟩
  | cons b bs ih =>
    intro processed s hInv hlen
    rw [List.flatten_cons, List.length_append] at hlen
    have hstep := @processBatch_step qs ps processed s hInv b (by omega)
    have hrest := ih (processed ++ b) _ hstep.2
      (by rw [List.length_append]; omega)
    rw [runFrom]
    simp only [hstep.1, Bool.false_eq_true, if_false]
    refine ⟨by rw [hrest.1]; rfl, ?_⟩
    have := hrest.2
    rwa [List.flatten_cons, ← List.append_assoc]

lemma mem_enum_spec {l : List ℚ} {p : ℕ × ℚ} (h : p ∈ l.enum) :
    p.1 < l.length ∧ l.getD p.1 0 = p.2 := by
  obtain ⟨n, hn, he⟩ := List.mem_iff_getElem.mp h
  rw [List.getElem_enum] at he
  have hn' : n < l.length := by rwa [List.enum_length] at hn
  rw [← he]
  exact ⟨hn', List.getD_eq_getElem _ _ hn'⟩

/-! ### Claim theorems -/

lemma processBatch_counter (query_size pool_size : ℕ) (s : EnergizerState)
    (b : List ℚ) :
    (processBatch query_size pool_size s b).1.counter = s.counter + b.length ∧
    ((processBatch query_size pool_size s b).2 = true ↔
      pool_size < s.counter + b.length) := by
  by_cases h : pool_size < s.counter + b.length
  · constructor <;> simp [processBatch, test_step, test_step_end, batchToPool, h]
  · constructor <;> simp [processBatch, test_step, test_step_end, batchToPool, h]

lemma runFrom_err (query_size pool_size : ℕ) :
    ∀ (bs : List (List ℚ)) (s : EnergizerState) (j : ℕ), s.counter ≤ pool_size →
      ((runFrom query_size pool_size s bs).2 = some j ↔
        (pool_size < s.counter + ((bs.map List.length).take (j + 1)).sum ∧
          ∀ i < j, s.counter + ((bs.map List.length).take (i + 1)).sum ≤ pool_size)) := by
  intro bs
  induction bs with
  | nil =>
    intro s j hs
    simp only [runFrom]
    constructor
    · intro h
      cases h
    · rintro ⟨h1, _⟩
      rw [List.map_nil, List.take_nil, List.sum_nil] at h1
      omega
  | cons b bs ih =>
    intro s j hs
    have hsum : ∀ n : ℕ, ((List.map List.length (b :: bs)).take (n + 1)).sum =
        b.length + ((bs.map List.length).take n).sum := by
      intro n
      rw [List.map_cons, List.take_succ_cons, List.sum_cons]
    have hpc := processBatch_counter query_size pool_size s b
    by_cases hovf : pool_size < s.counter + b.length
    · have h2 : (processBatch query_size pool_size s b).2 = true := hpc.2.mpr hovf
      rw [runFrom]
      simp only [h2, if_true]
      constructor
      · intro h
        injection h with hj
        subst hj
        refine ⟨?_, fun i hi => absurd hi (Nat.not_lt_zero i)⟩
        rw [hsum 0]
        have := Nat.le_add_right (((bs.map List.length).take 0).sum) 0
        omega
      · rintro ⟨_, h2'⟩
        have hj : j = 0 := by
          by_contra hne
          have hh := h2' 0 (Nat.pos_of_ne_zero hne)
          rw [hsum 0, List.take_zero, List.sum_nil] at hh
          omega
        rw [hj]
    · have h2 : (processBatch query_size pool_size s b).2 = false := by
        cases hb : (processBatch query_size pool_size s b).2 with
        | true => exact absurd (hpc.2.mp hb) hovf
        | false => rfl
      rw [runFrom]
      simp only [h2, Bool.false_eq_true, if_false]
      cases j with
      | zero =>
        constructor
        · intro h
          exfalso
          cases hr : (runFrom query_size pool_size
              (processBatch query_size pool_size s b).1 bs).2 with
          | none => rw [hr] at h; simp at h
          | some m => rw [hr] at h; simp at h
        · rintro ⟨h1, _⟩
          exfalso
          rw [hsum 0, List.take_zero, List.sum_nil] at h1
          omega
      | succ m =>
        have hih := ih (processBatch query_size pool_size s b).1 m
          (by rw [hpc.1]; omega)
        rw [hpc.1] at hih
        constructor
        · intro h
          cases hr : (runFrom query_size pool_size
              (processBatch query_size pool_size s b).1 bs).2 with
          | none => rw [hr] at h; simp at h
          | some m' =>
            rw [hr] at h
            simp at h
            have hm : m' = m := by omega
            rw [hm] at hr
            obtain ⟨ha, hb'⟩ := hih.mp hr
            constructor
            · rw [hsum (m + 1)]
              omega
            · intro i hi
              cases i with
              | zero =>
                rw [hsum 0, List.take_zero, List.sum_nil]
                omega
              | succ i' =>
                rw [hsum (i' + 1)]
                have := hb' i' (by omega)
                omega
        · rintro ⟨ha, hb'⟩
          have hfit : (runFrom query_size pool_size
              (processBatch query_size pool_size s b).1 bs).2 = some m := by
            apply hih.mpr
            constructor
            · rw [hsum (m + 1)] at ha
              omega
            · intro i hi
              have := hb' (i + 1) (by omega)
              rw [hsum (i + 1)] at this
              omega
          rw [hfit]
          rfl

/-- C4: processing batches without an intervening reset, the state-corruption
`RuntimeError` is raised exactly on the first batch `j` whose running size sum
exceeds `pool_size`, and on no earlier batch; a batch that brings the counter
exactly to `pool_size` does not raise. -/
theorem C4_overflow_raised_exactly_at_first_excess (query_size pool_size : ℕ)
    (bs : List (List ℚ)) (j : ℕ) :
    (runRound query_size pool_size bs).2 = some j ↔
      (pool_size < ((bs.map List.length).take (j + 1)).sum ∧
        ∀ i < j, ((bs.map List.length).take (i + 1)).sum ≤ pool_size) := by
  have h := runFrom_err query_size pool_size bs (reset query_size ⟨0, [], []⟩) j
    (Nat.zero_le _)
  simpa [runRound, reset] using h

/-- C5: for every prior state of a connected strategy, `reset()` establishes
`counter == 0`, `values` equal to a length-`query_size` all-zero sequence, and
`indices` equal to a length-`query_size` all-(-1) sequence. -/
theorem C5_reset_clears_state (query_size : ℕ) (s : EnergizerState) :
    (reset query_size s).counter = 0 ∧
    (reset query_size s).values = List.replicate query_size 0 ∧
    (reset query_size s).indices = List.replicate query_size (-1) ∧
    (reset query_size s).values.length = query_size ∧
    (reset query_size s).indices.length = query_size :=
  ⟨rfl, rfl, rfl, List.length_replicate _ _, List.length_replicate _ _⟩

/-- C6: every global index returned by `_batch_to_pool` is the batch-local
index plus the counter value held before the call, the counter is advanced by
`batch_size`, and after a round whose batch sizes sum to at most `pool_size`
the counter equals that sum exactly (and no error is raised). -/
theorem C6_index_translation_and_counter_sum
    (pool_size counter batch_size query_size : ℕ) (indices : List ℤ)
    (bs : List (List ℚ)) (hsum : (bs.map List.length).sum ≤ pool_size) :
    (batchToPool pool_size counter indices batch_size).1.1 =
      indices.map (fun i => i + (counter : ℤ)) ∧
    (∀ n, n < indices.length →
      (batchToPool pool_size counter indices batch_size).1.1.getD n 0 =
        indices.getD n 0 + (counter : ℤ)) ∧
    (batchToPool pool_size counter indices batch_size).1.2 = counter + batch_size ∧
    (runRound query_size pool_size bs).1.counter = (bs.map List.length).sum ∧
    (runRound query_size pool_size bs).2 = none := by
  have h := runFrom_inv bs [] (reset query_size ⟨0, [], []⟩) (inv_reset _ _)
    (by simp only [List.length_nil, List.length_flatten, Nat.zero_add]; exact hsum)
  refine ⟨rfl, ?_, rfl, ?_, h.1⟩
  · intro n hn
    show (indices.map (fun i => i + (counter : ℤ))).getD n 0 = _
    rw [List.getD_eq_getElem _ _ (by rw [List.length_map]; exact hn),
      List.getElem_map, List.getD_eq_getElem _ _ hn]
  · have h2 := h.2.1
    rw [List.nil_append] at h2
    rw [runRound] at *
    rw [h2, List.length_flatten]

/-- Witness for C6 at a concrete input: batches of sizes 2 and 1 with
`pool_size = 5`; after the round the counter equals 3. -/
theorem C6_index_translation_and_counter_sum_witness :
    (([[(1 : ℚ), 2], [3]].map List.length).sum ≤ 5) ∧
    (runRound 2 5 [[(1 : ℚ), 2], [3]]).1.counter =
      ([[(1 : ℚ), 2], [3]].map List.length).sum :=
  ⟨by decide,
    (C6_index_translation_and_counter_sum 5 0 0 2 [] [[(1 : ℚ), 2], [3]]
      (by decide)).2.2.2.1⟩

/-- C7: per batch, `test_step` returns a values list and an indices list both
of length `B = min(batch_size, query_size) ≤ query_size`, where the indices
are batch-local positions of the selected entries (the value at slot `n` is
the score at batch position `indices[n]`). -/
theorem C7_test_step_shape (query_size : ℕ) (scores : List ℚ) :
    (test_step query_size scores).1.1.length = min scores.length query_size ∧
    (test_step query_size scores).1.2.length = min scores.length query_size ∧
    min scores.length query_size ≤ query_size ∧
    (test_step query_size scores).2 = scores.length ∧
    ∀ q ∈ (test_step query_size scores).1.2.zip (test_step query_size scores).1.1,
      q.1 < scores.length ∧ scores.getD q.1 0 = q.2 := by
  refine ⟨optimize_objective_length₁ _ _, optimize_objective_length₂ _ _,
    Nat.min_le_right _ _, rfl, ?_⟩
  intro q hq
  have htk : ∀ p ∈ (List.insertionSort rankPos scores.enum).take
      (min scores.length query_size),
      p.1 < scores.length ∧ scores.getD p.1 0 = p.2 := by
    intro p hp
    exact mem_enum_spec ((List.perm_insertionSort rankPos scores.enum).mem_iff.mp
      (List.take_subset _ _ hp))
  simp only [test_step, optimize_objective, torchTopk] at hq
  rw [List.zip_map'] at hq
  obtain ⟨p, hp, he⟩ := List.mem_map.mp hq
  rw [← he]
  exact ⟨(htk p hp).1, (htk p hp).2⟩

/-- C8: a strategy that has not overridden `objective` fails immediately with
the not-implemented error when the scoring pipeline is invoked; no state is
involved (the pipeline reads and writes none of `counter`/`values`/`indices`). -/
theorem C8_objective_not_implemented (query_size : ℕ) (logits : List ℚ) :
    objective logits = Except.error "NotImplementedError" ∧
    test_step_pipeline query_size logits = Except.error "NotImplementedError" :=
  ⟨rfl, rfl⟩

/-- C9: `_batch_to_pool` mutates the caller's index tensor in place (the heap
cell is overwritten with the shifted values) and returns the very same tensor
reference, so for a nonzero counter the pre-translation local indices are no
longer observable through that reference. -/
theorem C9_batchToPool_in_place (c : ℤ) (heap : List (List ℤ)) (ref : ℕ)
    (h : ref < heap.length) :
    (batchToPoolRef c heap ref).2 = ref ∧
    (batchToPoolRef c heap ref).1.getD ref [] =
      (heap.getD ref []).map (fun i => i + c) ∧
    (c ≠ 0 → heap.getD ref [] ≠ [] →
      (batchToPoolRef c heap ref).1.getD ref [] ≠ heap.getD ref []) := by
  have hset : (batchToPoolRef c heap ref).1.getD ref [] =
      (heap.getD ref []).map (fun i => i + c) := by
    show (heap.set ref _).getD ref [] = _
    rw [List.getD_eq_getElem _ _ (by simpa using h), List.getElem_set_self]
  refine ⟨rfl, hset, ?_⟩
  intro hc hne
  rw [hset]
  cases hl : heap.getD ref [] with
  | nil => exact absurd hl hne
  | cons x t =>
    simp only [List.map_cons]
    intro heq
    have hx : x + c = x := ((List.cons.injEq _ _ _ _).mp heq).1
    exact hc (by omega)

/-- Witness for C9 at a concrete input: a one-tensor heap holding `[0, 1]`
shifted by counter 2. -/
theorem C9_batchToPool_in_place_witness :
    ((0 : ℕ) < [[(0 : ℤ), 1]].length) ∧
    (batchToPoolRef 2 [[(0 : ℤ), 1]] 0).2 = 0 ∧
    ((2 : ℤ) ≠ 0 → [[(0 : ℤ), 1]].getD 0 [] ≠ [] →
      (batchToPoolRef 2 [[(0 : ℤ), 1]] 0).1.getD 0 [] ≠ [[(0 : ℤ), 1]].getD 0 []) :=
  ⟨by decide, (C9_batchToPool_in_place 2 [[(0 : ℤ), 1]] 0 (by decide)).1,
    (C9_batchToPool_in_place 2 [[(0 : ℤ), 1]] 0 (by decide)).2.2⟩

/-- C10: when the counter-overflow `RuntimeError` is raised, the state has
already been mutated: the counter was advanced past `pool_size` before the
check (so the state differs from the pre-call state whenever the batch is
nonempty), the input indices were already translated, and only the merge was
skipped (`values`/`indices` untouched).  The failure is not atomic. -/
theorem C10_overflow_not_atomic (query_size pool_size : ℕ) (s : EnergizerState)
    (values : List ℚ) (indices : List ℕ) (batch_size : ℕ)
    (h : (test_step_end query_size pool_size s values indices batch_size).2 = true) :
    (test_step_end query_size pool_size s values indices batch_size).1.counter =
        s.counter + batch_size ∧
    pool_size < s.counter + batch_size ∧
    (test_step_end query_size pool_size s values indices batch_size).1.values =
      s.values ∧
    (test_step_end query_size pool_size s values indices batch_size).1.indices =
      s.indices ∧
    (batchToPool pool_size s.counter
        (indices.map (fun (i : ℕ) => (i : ℤ))) batch_size).1.1 =
      indices.map (fun (i : ℕ) => (i : ℤ) + (s.counter : ℤ)) ∧
    (0 < batch_size →
      (test_step_end query_size pool_size s values indices batch_size).1 ≠ s) := by
  by_cases hovf : pool_size < s.counter + batch_size
  · have hred : test_step_end query_size pool_size s values indices batch_size =
        ({ s with counter := s.counter + batch_size }, true) := by
      simp [test_step_end, batchToPool, hovf]
    rw [hred]
    refine ⟨rfl, hovf, rfl, rfl, ?_, ?_⟩
    · show ((indices.map _).map _) = _
      rw [List.map_map]
      rfl
    · intro hbs heq
      have hcc := congrArg EnergizerState.counter heq
      simp only at hcc
      omega
  · exfalso
    have hfalse : (test_step_end query_size pool_size s values
        indices batch_size).2 = false := by
      simp [test_step_end, batchToPool, hovf]
    rw [hfalse] at h
    cases h

/-- Witness for C10 at a concrete input: a second singleton batch overflows a
pool of size 1; the raising call still advanced the counter to 2. -/
theorem C10_overflow_not_atomic_witness :
    (test_step_end 1 1 ⟨1, [5], [0]⟩ [7] [0] 1).2 = true ∧
    (test_step_end 1 1 ⟨1, [5], [0]⟩ [7] [0] 1).1.counter = 1 + 1 ∧
    (0 < 1 → (test_step_end 1 1 ⟨1, [5], [0]⟩ [7] [0] 1).1 ≠ ⟨1, [5], [0]⟩) :=
  ⟨by decide, (C10_overflow_not_atomic 1 1 ⟨1, [5], [0]⟩ [7] [0] 1 (by decide)).1,
    (C10_overflow_not_atomic 1 1 ⟨1, [5], [0]⟩ [7] [0] 1 (by decide)).2.2.2.2.2⟩

/-- C1 counterexample: the claim fails as stated.  Pool `[-5]`, one batch,
`query_size = K = 1 ≤ N = 1`: after the round the state still holds the
sentinel pair `(0, -1)` — the zero-initialised `values` beat the negative real
score in the merge — while the true top-1 obtained by sorting the pool once is
`(-5, 0)`. -/
theorem C1_counterexample_negative_scores :
    (runRound 1 1 [[(-5 : ℚ)]]).2 = none ∧
    statePairs (runRound 1 1 [[(-5 : ℚ)]]).1 ≠ trueTopK 1 [(-5 : ℚ)] := by
  constructor
  · decide
  · decide

/-- C1 (amended): for every pool whose scores are all strictly positive, split
into batches in any partition, and any `query_size` K ≤ N, after every batch
has been processed through `test_step` and `test_step_end` since the last
`reset()`, the strategy's `values`/`indices` pairs equal the true top-K
(score, global-index) pairs of the whole pool as obtained by sorting the full
pool once.  (The positivity proviso is forced by the zero sentinels, see the
counterexample: a sentinel outranks any non-positive real score.) -/
theorem C1_streaming_topk_equals_sorted_topk (query_size pool_size : ℕ)
    (bs : List (List ℚ))
    (hK : query_size ≤ bs.flatten.length)
    (hps : bs.flatten.length ≤ pool_size)
    (hpos : ∀ x ∈ bs.flatten, 0 < x) :
    statePairs (runRound query_size pool_size bs).1 =
      trueTopK query_size bs.flatten ∧
    (runRound query_size pool_size bs).2 = none := by
  have h := runFrom_inv bs [] (reset query_size ⟨0, [], []⟩) (inv_reset _ _)
    (by simpa using hps)
  refine ⟨?_, h.1⟩
  have hsp := h.2.2.2.2
  rw [List.nil_append] at hsp
  rw [runRound] at *
  rw [hsp]
  have hdom : ∀ x ∈ sentPairs query_size,
      query_size ≤ (pairsFrom 0 bs.flatten).countP
        (fun y => decide (rankPair y x)) := by
    intro x hx
    have hxval : x = ((0 : ℚ), (-1 : ℤ)) := List.eq_of_mem_replicate hx
    have hcp : (pairsFrom 0 bs.flatten).countP (fun y => decide (rankPair y x)) =
        (pairsFrom 0 bs.flatten).length := by
      apply List.countP_eq_length.mpr
      intro y hy
      apply decide_eq_true
      have hyv := (mem_pairsFrom hy).2.2
      rw [hxval]
      exact Or.inl (hpos y.1 hyv)
    rw [hcp, pairsFrom_length]
    exact hK
  have hd := take_sort_dropDominated query_size (sentPairs query_size)
    (pairsFrom 0 bs.flatten) [] hdom
  rw [List.append_nil, List.append_nil] at hd
  rw [insertionSort_eq_of_perm
    (List.perm_append_comm :
      (sentPairs query_size ++ pairsFrom 0 bs.flatten).Perm _), hd]
  rfl

/-- Witness for C1 at the spec's concrete scenario scaled by 20 (so that all
scores are integer-valued rationals): `pool_size = 5`, `query_size = 2`,
batches `[[2, 18], [6, 4, 19]]`; the final state holds exactly the pairs
`(19, 4)` and `(18, 1)`. -/
theorem C1_streaming_topk_equals_sorted_topk_witness :
    ((2 ≤ ([[(2 : ℚ), 18], [6, 4, 19]].flatten).length) ∧
      (([[(2 : ℚ), 18], [6, 4, 19]].flatten).length ≤ 5) ∧
      (∀ x ∈ [[(2 : ℚ), 18], [6, 4, 19]].flatten, 0 < x)) ∧
    statePairs (runRound 2 5 [[(2 : ℚ), 18], [6, 4, 19]]).1 =
      trueTopK 2 ([[(2 : ℚ), 18], [6, 4, 19]].flatten) :=
  ⟨⟨by decide, by decide, by decide⟩,
    (C1_streaming_topk_equals_sorted_topk 2 5 [[(2 : ℚ), 18], [6, 4, 19]]
      (by decide) (by decide) (by decide)).1⟩

/-! ### Structure of the state: positives first, then sentinels

Non-positive real scores never enter the state: the `query_size` sentinels all
outrank them.  Hence the sorted candidate list decomposes into the positive
pool pairs, the sentinel block, and the non-positive pool pairs. -/

lemma sortP_block_decomposition (qs : ℕ) (processed : List ℚ) :
    List.insertionSort rankPair (sentPairs qs ++ pairsFrom 0 processed) =
      List.insertionSort rankPair
          ((pairsFrom 0 processed).filter (fun p => decide (0 < p.1))) ++
        sentPairs qs ++
        List.insertionSort rankPair
          ((pairsFrom 0 processed).filter (fun p => !decide (0 < p.1))) := by
  have hposmem : ∀ p ∈ List.insertionSort rankPair
      ((pairsFrom 0 processed).filter (fun p => decide (0 < p.1))),
      0 < p.1 := by
    intro p hp
    have := (List.mem_filter.mp ((List.mem_insertionSort _).mp hp)).2
    simpa using this
  have hnonposmem : ∀ p ∈ List.insertionSort rankPair
      ((pairsFrom 0 processed).filter (fun p => !decide (0 < p.1))),
      p.1 ≤ 0 ∧ 0 ≤ p.2 := by
    intro p hp
    have hm := List.mem_filter.mp ((List.mem_insertionSort _).mp hp)
    refine ⟨by simpa using hm.2, (mem_pairsFrom hm.1).1⟩
  have p1 : (sentPairs qs ++ pairsFrom 0 processed).Perm
      (sentPairs qs ++
        ((pairsFrom 0 processed).filter (fun p => decide (0 < p.1)) ++
          (pairsFrom 0 processed).filter (fun p => !decide (0 < p.1)))) :=
    ((List.filter_append_perm _ _).symm).append_left _
  have p2 : (sentPairs qs ++
      ((pairsFrom 0 processed).filter (fun p => decide (0 < p.1)) ++
        (pairsFrom 0 processed).filter (fun p => !decide (0 < p.1)))).Perm
      (((pairsFrom 0 processed).filter (fun p => decide (0 < p.1)) ++
          sentPairs qs) ++
        (pairsFrom 0 processed).filter (fun p => !decide (0 < p.1))) := by
    rw [← List.append_assoc]
    exact List.perm_append_comm.append_right _
  have p3 : (((pairsFrom 0 processed).filter (fun p => decide (0 < p.1)) ++
        sentPairs qs) ++
      (pairsFrom 0 processed).filter (fun p => !decide (0 < p.1))).Perm
      ((List.insertionSort rankPair
          ((pairsFrom 0 processed).filter (fun p => decide (0 < p.1))) ++
        sentPairs qs) ++
        List.insertionSort rankPair
          ((pairsFrom 0 processed).filter (fun p => !decide (0 < p.1)))) :=
    ((List.perm_insertionSort _ _).symm.append_right _).append
      (List.perm_insertionSort _ _).symm
  refine List.eq_of_perm_of_sorted
    ((List.perm_insertionSort _ _).trans (p1.trans (p2.trans p3)))
    (List.sorted_insertionSort _ _) ?_
  show List.Pairwise rankPair _
  rw [List.pairwise_append, List.pairwise_append]
  refine ⟨⟨List.sorted_insertionSort _ _,
    List.pairwise_replicate.mpr (Or.inr (refl_of rankPair _)), ?_⟩,
    List.sorted_insertionSort _ _, ?_⟩
  · intro y hy z hz
    have hz' : z = ((0 : ℚ), (-1 : ℤ)) := List.eq_of_mem_replicate hz
    rw [hz']
    exact Or.inl (hposmem y hy)
  · intro a ha z hz
    obtain ⟨hz1, hz2⟩ := hnonposmem z hz
    rcases List.mem_append.mp ha with ha' | ha'
    · exact Or.inl (lt_of_le_of_lt hz1 (hposmem a ha'))
    · have ha2 : a = ((0 : ℚ), (-1 : ℤ)) := List.eq_of_mem_replicate ha'
      rw [ha2]
      rcases lt_or_eq_of_le hz1 with h' | h'
      · exact Or.inl h'
      · exact Or.inr ⟨h'.symm, by omega⟩

lemma inv_indices_sentinel_iff {qs : ℕ} {processed : List ℚ} {s : EnergizerState}
    (h : Inv qs processed s) {i : ℕ} (hi : i < qs) :
    (s.indices.getD i 0 = -1 ↔
      min (processed.countP (fun v => decide (0 < v))) qs ≤ i) := by
  have hPlen : (List.insertionSort rankPair
      ((pairsFrom 0 processed).filter (fun p => decide (0 < p.1)))).length =
      processed.countP (fun v => decide (0 < v)) := by
    rw [List.length_insertionSort, ← List.countP_eq_length_filter]
    have h1 : (pairsFrom 0 processed).countP (fun p => decide (0 < p.1)) =
        ((pairsFrom 0 processed).map Prod.fst).countP
          (fun v => decide (0 < v)) := by
      rw [List.countP_map]
      rfl
    rw [h1, map_fst_pairsFrom]
  have hidx : s.indices = (statePairs s).map Prod.snd :=
    (List.map_snd_zip _ _ (by rw [h.2.1, h.2.2.1])).symm
  have hchar := h.2.2.2
  rw [sortP_block_decomposition] at hchar
  have hposidx : ∀ p ∈ List.insertionSort rankPair
      ((pairsFrom 0 processed).filter (fun p => decide (0 < p.1))),
      0 ≤ p.2 := by
    intro p hp
    exact (mem_pairsFrom
      (List.mem_filter.mp ((List.mem_insertionSort _).mp hp)).1).1
  have hilen : i < s.indices.length := by
    rw [h.2.2.1]
    exact hi
  have hgdmem : s.indices.getD i 0 ∈ s.indices := by
    rw [List.getD_eq_getElem _ _ hilen]
    exact List.getElem_mem hilen
  by_cases hP : qs ≤ processed.countP (fun v => decide (0 < v))
  · rw [min_eq_right hP]
    have htake : statePairs s = (List.insertionSort rankPair
        ((pairsFrom 0 processed).filter (fun p => decide (0 < p.1)))).take qs := by
      rw [hchar, List.append_assoc,
        List.take_append_of_le_length (by rw [hPlen]; exact hP)]
    have hall : ∀ z ∈ s.indices, (0 : ℤ) ≤ z := by
      intro z hz
      rw [hidx, htake] at hz
      obtain ⟨p, hp, he⟩ := List.mem_map.mp hz
      rw [← he]
      exact hposidx p (List.take_subset _ _ hp)
    constructor
    · intro hsent
      have := hall _ hgdmem
      omega
    · intro hqi
      omega
  · push_neg at hP
    rw [min_eq_left (le_of_lt hP)]
    have htake : statePairs s =
        List.insertionSort rankPair
          ((pairsFrom 0 processed).filter (fun p => decide (0 < p.1))) ++
        List.replicate (qs - processed.countP (fun v => decide (0 < v)))
          ((0 : ℚ), (-1 : ℤ)) := by
      rw [hchar, List.append_assoc, List.take_append_eq_append_take,
        List.take_of_length_le (by rw [hPlen]; omega), hPlen,
        List.take_append_of_le_length (by rw [sentPairs_length]; omega),
        sentPairs, List.take_replicate, min_eq_left (by omega)]
    have hindices : s.indices =
        (List.insertionSort rankPair
          ((pairsFrom 0 processed).filter (fun p => decide (0 < p.1)))).map
            Prod.snd ++
        List.replicate (qs - processed.countP (fun v => decide (0 < v)))
          (-1 : ℤ) := by
      rw [hidx, htake, List.map_append, List.map_replicate]
    by_cases hiP : i < processed.countP (fun v => decide (0 < v))
    · constructor
      · intro hsent
        exfalso
        rw [hindices, List.getD_append _ _ _ _
          (by rw [List.length_map, hPlen]; exact hiP)] at hsent
        have hiA : i < ((List.insertionSort rankPair
            ((pairsFrom 0 processed).filter
              (fun p => decide (0 < p.1)))).map Prod.snd).length := by
          rw [List.length_map, hPlen]
          exact hiP
        have hmemA : ((List.insertionSort rankPair
            ((pairsFrom 0 processed).filter
              (fun p => decide (0 < p.1)))).map Prod.snd).getD i 0 ∈
            (List.insertionSort rankPair
              ((pairsFrom 0 processed).filter
                (fun p => decide (0 < p.1)))).map Prod.snd := by
          rw [List.getD_eq_getElem _ _ hiA]
          exact List.getElem_mem hiA
        obtain ⟨p, hp, he⟩ := List.mem_map.mp hmemA
        have := hposidx p hp
        omega
      · intro hqi
        omega
    · push_neg at hiP
      constructor
      · intro _
        omega
      · intro _
        rw [hindices, List.getD_append_right _ _ _ _
          (by rw [List.length_map, hPlen]; exact hiP)]
        rw [List.length_map, hPlen]
        have hrep : i - processed.countP (fun v => decide (0 < v)) <
            qs - processed.countP (fun v => decide (0 < v)) := by omega
        rw [List.getD_eq_getElem _ _ (by rw [List.length_replicate]; exact hrep),
          List.getElem_replicate]

/-- C2 counterexample: the claim fails as stated.  With `query_size = 1` and
pool `[-5]`, after processing the full pool (counter = 1, which is not smaller
than `query_size`), slot 0 still holds the sentinel `-1`: a `-1` slot can
survive arbitrarily long when scores are non-positive. -/
theorem C2_counterexample_sentinel_survives_full_pool :
    (runRound 1 1 [[(-5 : ℚ)]]).1.counter = 1 ∧
    ¬ (runRound 1 1 [[(-5 : ℚ)]]).1.counter < 1 ∧
    (runRound 1 1 [[(-5 : ℚ)]]).1.indices.getD 0 0 = -1 := by
  refine ⟨by decide, by decide, by decide⟩

/-- C2 (amended): at every point after `reset()` (that is, after any prefix of
the round's batches) and for every slot `i`, `indices[i] = -1` iff
`i ≥ min(P, query_size)` where `P` is the number of examples with strictly
positive score processed so far — equivalently, iff slot `i` has never been
filled by a real example, since the set of filled slots is the monotonically
growing prefix of length `min(P, query_size)`.  Consequently a slot never goes
back from filled to `-1`, and a `-1` slot can exist only while the number of
positive-score examples processed is smaller than `query_size` (not, as
stated, the number of all processed examples — see the counterexample). -/
theorem C2_sentinel_iff_never_filled (query_size pool_size : ℕ)
    (bs : List (List ℚ)) (t i : ℕ) (hi : i < query_size)
    (hlen : bs.flatten.length ≤ pool_size) :
    (((runFrom query_size pool_size (reset query_size ⟨0, [], []⟩)
        (bs.take t)).1.indices.getD i 0 = -1) ↔
      min ((bs.take t).flatten.countP (fun v => decide (0 < v))) query_size ≤ i) ∧
    (∀ t', t ≤ t' →
      (runFrom query_size pool_size (reset query_size ⟨0, [], []⟩)
        (bs.take t)).1.indices.getD i 0 ≠ -1 →
      (runFrom query_size pool_size (reset query_size ⟨0, [], []⟩)
        (bs.take t')).1.indices.getD i 0 ≠ -1) ∧
    ((runFrom query_size pool_size (reset query_size ⟨0, [], []⟩)
        (bs.take t)).1.indices.getD i 0 = -1 →
      (bs.take t).flatten.countP (fun v => decide (0 < v)) < query_size) := by
  have hpre : ∀ u : ℕ, (bs.take u).flatten.length ≤ pool_size := by
    intro u
    have hsplit : bs.flatten.length =
        (bs.take u).flatten.length + (bs.drop u).flatten.length := by
      conv_lhs => rw [← List.take_append_drop u bs]
      rw [List.flatten_append, List.length_append]
    omega
  have hinv : ∀ u : ℕ, Inv query_size (bs.take u).flatten
      (runFrom query_size pool_size (reset query_size ⟨0, [], []⟩)
        (bs.take u)).1 := by
    intro u
    have h := (runFrom_inv (bs.take u) [] (reset query_size ⟨0, [], []⟩)
      (inv_reset _ _) (by simpa using hpre u)).2
    rwa [List.nil_append] at h
  have hiff : ∀ u : ℕ,
      ((runFrom query_size pool_size (reset query_size ⟨0, [], []⟩)
          (bs.take u)).1.indices.getD i 0 = -1 ↔
        min ((bs.take u).flatten.countP (fun v => decide (0 < v)))
          query_size ≤ i) :=
    fun u => inv_indices_sentinel_iff (hinv u) hi
  refine ⟨hiff t, ?_, ?_⟩
  · intro t' htt' hne hne'
    apply hne
    apply (hiff t).mpr
    have h3 := (hiff t').mp hne'
    have hmono : (bs.take t).flatten.countP (fun v => decide (0 < v)) ≤
        (bs.take t').flatten.countP (fun v => decide (0 < v)) := by
      have hsp : bs.take t' = bs.take t ++ (bs.drop t).take (t' - t) := by
        rw [← List.take_add]
        congr 1
        omega
      rw [hsp, List.flatten_append, List.countP_append]
      omega
    omega
  · intro hsent
    have := (hiff t).mp hsent
    omega

/-- Witness for C2 at a concrete input: `query_size = 2`, batches
`[[5], [-1], [2]]`, prefix of one batch (one positive processed): slot 1
holds `-1` and the characterization applies. -/
theorem C2_sentinel_iff_never_filled_witness :
    ((1 < 2) ∧ ([[(5 : ℚ)], [-1], [2]].flatten.length ≤ 3)) ∧
    ((runFrom 2 3 (reset 2 ⟨0, [], []⟩)
        ([[(5 : ℚ)], [-1], [2]].take 1)).1.indices.getD 1 0 = -1 ↔
      min (([[(5 : ℚ)], [-1], [2]].take 1).flatten.countP
        (fun v => decide (0 < v))) 2 ≤ 1) :=
  ⟨⟨by decide, by decide⟩,
    (C2_sentinel_iff_never_filled 2 3 [[(5 : ℚ)], [-1], [2]] 1 1
      (by decide) (by decide)).1⟩

/-! ### Order invariance (C3) -/

lemma indexBatches_flatten (bs : List (List ℚ)) :
    ∀ c : ℤ, (indexBatches c bs).flatten = pairsFrom c bs.flatten := by
  induction bs with
  | nil => intro c; rfl
  | cons b bs ih =>
    intro c
    rw [indexBatches, List.flatten_cons, List.flatten_cons, pairsFrom_append,
      ih (c + b.length)]

lemma foldl_mergePairs (query_size : ℕ) :
    ∀ (bs : List (List (ℚ × ℤ))) (C : List (ℚ × ℤ)), query_size ≤ C.length →
      bs.foldl (mergePairs query_size)
          ((List.insertionSort rankPair C).take query_size) =
        (List.insertionSort rankPair (C ++ bs.flatten)).take query_size := by
  intro bs
  induction bs with
  | nil =>
    intro C _
    rw [List.foldl_nil, List.flatten_nil, List.append_nil]
  | cons b bs ih =>
    intro C hC
    rw [List.foldl_cons]
    have hs0 : ((List.insertionSort rankPair C).take query_size).length =
        query_size := by
      rw [List.length_take, List.length_insertionSort]
      omega
    have hmerge : mergePairs query_size
        ((List.insertionSort rankPair C).take query_size) b =
        (List.insertionSort rankPair (C ++ b)).take query_size := by
      rw [mergePairs]
      have hminlen : min (((List.insertionSort rankPair C).take query_size ++
          (List.insertionSort rankPair b).take (min b.length query_size)).length)
          query_size = query_size := by
        rw [List.length_append, hs0]
        omega
      rw [hminlen]
      exact merge_characterization query_size C b hC
    rw [hmerge, ih (C ++ b) (by rw [List.length_append]; omega),
      List.flatten_cons, List.append_assoc]

lemma runMerges_characterization (query_size : ℕ) (bs : List (List (ℚ × ℤ))) :
    runMerges query_size bs =
      (List.insertionSort rankPair
        (sentPairs query_size ++ bs.flatten)).take query_size := by
  have hsent : sentPairs query_size =
      (List.insertionSort rankPair (sentPairs query_size)).take query_size := by
    have hsorted : List.Sorted rankPair (sentPairs query_size) := by
      rw [sentPairs]
      exact List.pairwise_replicate.mpr (Or.inr (refl_of rankPair _))
    rw [List.Sorted.insertionSort_eq hsorted, sentPairs,
      List.take_replicate, min_self]
  rw [runMerges]
  conv_lhs => rw [hsent]
  exact foldl_mergePairs query_size bs (sentPairs query_size)
    (by rw [sentPairs_length])

/-- C3 counterexample: the claim fails as stated.  Processing the singleton
batches `[1]` and `[2]` in the two possible orders yields different
(score, index) sets — `{(2, 1)}` versus `{(2, 0)}` — because counter-based
translation assigns global indices by processing order. -/
theorem C3_counterexample_order_changes_indices :
    Multiset.ofList (statePairs (runRound 1 2 [[(1 : ℚ)], [2]]).1) ≠
      Multiset.ofList (statePairs (runRound 1 2 [[(2 : ℚ)], [1]]).1) := by
  decide

/-- C3 (amended): processing the same set of batches in two different orders
yields the same final `values` (identical lists); the full (score, index)
state is order invariant once each batch carries its true global offsets
(offset-correct counter bookkeeping): the pair-level merge fold gives the same
result for any permutation of the pre-indexed batches, and the code's round
realizes exactly that fold on the canonically indexed batches. -/
theorem C3_order_invariance (query_size pool_size : ℕ) (bs1 bs2 : List (List ℚ))
    (pbs1 pbs2 : List (List (ℚ × ℤ))) (hperm : bs1.Perm bs2)
    (hp : pbs1.Perm pbs2) (hlen1 : bs1.flatten.length ≤ pool_size) :
    (runRound query_size pool_size bs1).1.values =
      (runRound query_size pool_size bs2).1.values ∧
    runMerges query_size pbs1 = runMerges query_size pbs2 ∧
    statePairs (runRound query_size pool_size bs1).1 =
      runMerges query_size (indexBatches 0 bs1) := by
  have hflat : bs1.flatten.Perm bs2.flatten := hperm.flatten
  have hlen2 : bs2.flatten.length ≤ pool_size := by
    rw [← hflat.length_eq]
    exact hlen1
  have hinv1 : Inv query_size bs1.flatten
      (runRound query_size pool_size bs1).1 := by
    have h := (runFrom_inv bs1 [] (reset query_size ⟨0, [], []⟩)
      (inv_reset _ _) (by simpa using hlen1)).2
    rwa [List.nil_append] at h
  have hinv2 : Inv query_size bs2.flatten
      (runRound query_size pool_size bs2).1 := by
    have h := (runFrom_inv bs2 [] (reset query_size ⟨0, [], []⟩)
      (inv_reset _ _) (by simpa using hlen2)).2
    rwa [List.nil_append] at h
  refine ⟨?_, ?_, ?_⟩
  · -- identical final values lists
    have hv1 : (runRound query_size pool_size bs1).1.values =
        (statePairs (runRound query_size pool_size bs1).1).map Prod.fst :=
      (List.map_fst_zip _ _ (by rw [hinv1.2.1, hinv1.2.2.1])).symm
    have hv2 : (runRound query_size pool_size bs2).1.values =
        (statePairs (runRound query_size pool_size bs2).1).map Prod.fst :=
      (List.map_fst_zip _ _ (by rw [hinv2.2.1, hinv2.2.2.1])).symm
    rw [hv1, hv2, hinv1.2.2.2, hinv2.2.2.2, List.map_take, List.map_take]
    have hsorted : ∀ pool : List ℚ, List.Sorted (fun a b : ℚ => b ≤ a)
        ((List.insertionSort rankPair
          (sentPairs query_size ++ pairsFrom 0 pool)).map Prod.fst) := by
      intro pool
      exact List.Pairwise.map Prod.fst
        (fun a b hab => by
          rcases hab with h' | ⟨h', _⟩
          · exact le_of_lt h'
          · exact le_of_eq h'.symm)
        (List.sorted_insertionSort rankPair _)
    have hpermv : ((List.insertionSort rankPair
        (sentPairs query_size ++ pairsFrom 0 bs1.flatten)).map Prod.fst).Perm
        ((List.insertionSort rankPair
          (sentPairs query_size ++ pairsFrom 0 bs2.flatten)).map Prod.fst) := by
      refine ((List.perm_insertionSort _ _).map _).trans
        (List.Perm.trans ?_ (((List.perm_insertionSort _ _).map _).symm))
      rw [List.map_append, List.map_append, map_fst_pairsFrom, map_fst_pairsFrom]
      exact hflat.append_left _
    rw [List.eq_of_perm_of_sorted hpermv (hsorted bs1.flatten)
      (hsorted bs2.flatten)]
  · -- pair-level merge is order invariant
    rw [runMerges_characterization, runMerges_characterization,
      insertionSort_eq_of_perm (hp.flatten.append_left (sentPairs query_size))]
  · -- the code realizes the pair-level fold on canonically indexed batches
    rw [hinv1.2.2.2, runMerges_characterization, indexBatches_flatten]

/-- Witness for C3 at a concrete input: swapping the two batches keeps the
final values `[2]`, and the pair-level merges agree once indices are fixed. -/
theorem C3_order_invariance_witness :
    (([[(1 : ℚ)], [2]] : List (List ℚ)).Perm [[(2 : ℚ)], [1]] ∧
      ([[((1 : ℚ), (0 : ℤ))], [((2 : ℚ), (1 : ℤ))]] :
        List (List (ℚ × ℤ))).Perm [[((2 : ℚ), (1 : ℤ))], [((1 : ℚ), (0 : ℤ))]] ∧
      ([[(1 : ℚ)], [2]] : List (List ℚ)).flatten.length ≤ 2) ∧
    (runRound 1 2 [[(1 : ℚ)], [2]]).1.values =
      (runRound 1 2 [[(2 : ℚ)], [1]]).1.values ∧
    runMerges 1 [[((1 : ℚ), (0 : ℤ))], [((2 : ℚ), (1 : ℤ))]] =
      runMerges 1 [[((2 : ℚ), (1 : ℤ))], [((1 : ℚ), (0 : ℤ))]] :=
  ⟨⟨by decide, by decide, by decide⟩,
    (C3_order_invariance 1 2 [[(1 : ℚ)], [2]] [[(2 : ℚ)], [1]]
      [[((1 : ℚ), (0 : ℤ))], [((2 : ℚ), (1 : ℤ))]]
      [[((2 : ℚ), (1 : ℤ))], [((1 : ℚ), (0 : ℤ))]]
      (by decide) (by decide) (by decide)).1,
    (C3_order_invariance 1 2 [[(1 : ℚ)], [2]] [[(2 : ℚ)], [1]]
      [[((1 : ℚ), (0 : ℤ))], [((2 : ℚ), (1 : ℤ))]]
      [[((2 : ℚ), (1 : ℤ))], [((1 : ℚ), (0 : ℤ))]]
      (by decide) (by decide) (by decide)).2.1⟩

end Energizer
